import Mathlib

/-!
Verification of the IPSubnetCalculator library (src/ip-subnet-calculator.ts).

The TypeScript source is embedded shallowly:

* JS numbers that hold IPv4 addresses, masks and bit counts are modelled as
  `Int` (every value the library manipulates is integral); unsigned 32-bit
  results of JS bit operations are modelled as `Nat` with explicit `% 2^32`.
* `x >>> 0` on an integral JS number is `toUint32`; `a & b` followed by
  `>>> 0` is `jsAnd`; `(1 << sh) >>> 0` is `jsShl1` (JS reduces the shift
  count mod 32); `1 << sh` kept signed (as in `calculateCIDRPrefix`) is
  `jsShl1Signed`.
* A thrown JS `Error` is `Option.none` at the function that may throw; an
  entry point that returns JS `null` as a failure sentinel returns an inner
  `Option.none`, so `calculate` has type `Option (Option _)`: the outer layer
  is "no uncaught exception", the inner layer is the `null` sentinel.
* The `string | number` argument type of the codec is the sum type `IPAny`.
* JS `String.prototype.split('.')` is `splitOnDot` on the character list,
  and the `isIp` regular expression `^(\d{1,3})\.(\d{1,3})\.(\d{1,3})\.(\d{1,3})$`
  is checked structurally: exactly four dot-separated groups of one to three
  digit characters.
* The `while` loop of `calculate` is given explicit fuel
  `ipEndNum + 1 - ipStartNum`; fuel exhaustion is reported on the outer
  (exception) layer and is proved unreachable for the inputs the claims
  quantify over.
-/

namespace IpSubnetCalculator

/-- JS `(1 << sh) >>> 0` for an integral shift count: JS reduces the shift
count modulo 32 and `>>> 0` reinterprets the 32-bit result as unsigned. -/
def jsShl1 (sh : Int) : Nat := 2 ^ ((sh % 32).toNat)

/-- JS `x >>> 0` on an integral number: reinterpret modulo `2^32` as unsigned. -/
def toUint32 (n : Int) : Nat := (n % (4294967296 : Int)).toNat

/-- JS `(a & b) >>> 0` on integral numbers: both operands are reduced to
their 32-bit patterns and combined bitwise. -/
def jsAnd (a b : Int) : Nat := toUint32 a &&& toUint32 b

/-- JS `1 << sh` kept as a signed 32-bit value (no `>>> 0`): shifting into
bit 31 yields the negative number `-2^31`. -/
def jsShl1Signed (sh : Int) : Int :=
  if (sh % 32).toNat = 31 then -(2 ^ 31) else (2 : Int) ^ ((sh % 32).toNat)

/-- Source `getPrefixMask`: `for (i = 0; i < prefixSize; i += 1) mask += (1 << (32 - (i + 1))) >>> 0`. -/
def getPrefixMask (prefixSize : Int) : Nat :=
  (List.range prefixSize.toNat).foldl
    (fun (mask : Nat) (i : Nat) => mask + jsShl1 (32 - ((i : Int) + 1))) 0

/-- Source `getMask`: `for (i = 0; i < maskSize; i += 1) mask += (1 << i) >>> 0`. -/
def getMask (maskSize : Int) : Nat :=
  (List.range maskSize.toNat).foldl
    (fun (mask : Nat) (i : Nat) => mask + jsShl1 (i : Int)) 0

/-- The character class `[0-9]` of the `isIp` regular expression. -/
def isDigitChar (c : Char) : Bool := '0' ≤ c && c ≤ '9'

/-- JS `s.split('.')` on the underlying character list. -/
def splitOnDot : List Char → List (List Char)
  | [] => [[]]
  | c :: rest =>
    if c = '.' then [] :: splitOnDot rest
    else
      match splitOnDot rest with
      | [] => [[c]]
      | g :: gs => (c :: g) :: gs

/-- One capture group `([0-9]{1,3})` of the `isIp` regular expression. -/
def isOctetGroup (g : List Char) : Bool :=
  1 ≤ g.length && g.length ≤ 3 && g.all isDigitChar

/-- JS `parseInt(g, 10)` (also unary `+g`) on an all-digit group. -/
def parseDec (g : List Char) : Nat :=
  g.foldl (fun acc c => acc * 10 + (c.toNat - 48)) 0

/-- Source `isIp`: the string matches
`^([0-9]{1,3})\.([0-9]{1,3})\.([0-9]{1,3})\.([0-9]{1,3})$` and every captured
group parses to an integer in `[0, 255]` (`parseInt` of a digit group is
never negative, so only the `n > 255` test can fail). -/
def isIp (ip : String) : Bool :=
  let parts := splitOnDot ip.data
  parts.length == 4 && parts.all isOctetGroup && parts.all (fun g => parseDec g ≤ 255)

/-- Source `isDecimalIp`: an integral number in `[0, 4294967295]` (the
`ipNum % 1 === 0` test is vacuous on the integral values modelled here). -/
def isDecimalIp (ipNum : Int) : Bool := 0 ≤ ipNum && ipNum ≤ 4294967295

/-- The `string | number` JS argument type of the codec. -/
inductive IPAny where
  | str : String → IPAny
  | num : Int → IPAny
deriving DecidableEq

/-- Source `toDecimal`: a valid number is returned unchanged; a valid string
is folded as `((d0*256 + d1)*256 + d2)*256 + d3`; anything else throws
(`none`).  The wildcard row is unreachable: `isIp` forces exactly four
groups. -/
def toDecimal (ipString : IPAny) : Option Int :=
  match ipString with
  | .num n => if isDecimalIp n then some n else none
  | .str s =>
    if isIp s then
      match splitOnDot s.data with
      | [d0, d1, d2, d3] =>
        some ((((parseDec d0 * 256 + parseDec d1) * 256 + parseDec d2) * 256
          + parseDec d3 : Nat) : Int)
      | _ => none
    else none

/-- The `for (let i = 3; i > 0; i -= 1)` formatting loop of source
`toString`: `curIp = Math.floor(curIp / 256); d = curIp % 256 + "." + d`. -/
def toStringAux : Nat → Nat → String → String
  | 0, _, d => d
  | i + 1, curIp, d =>
    toStringAux i (curIp / 256) (Nat.repr ((curIp / 256) % 256) ++ "." ++ d)

/-- Source `toString`: a valid string is returned unchanged; a valid number
is formatted as dotted decimal by repeated division by 256; anything else
throws (`none`). -/
def toString (ipNum : IPAny) : Option String :=
  match ipNum with
  | .str s => if isIp s then some s else none
  | .num n =>
    if isDecimalIp n then some (toStringAux 3 n.toNat (Nat.repr (n.toNat % 256)))
    else none

/-- The `SubnetAnalysis` record of the source. -/
structure SubnetAnalysis where
  ipLow : Nat
  ipLowStr : String
  ipHigh : Nat
  ipHighStr : String
  prefixMask : Nat
  prefixMaskStr : String
  prefixSize : Int
  invertedMask : Nat
  invertedMaskStr : String
  invertedMaskSize : Int
deriving DecidableEq, Repr

/-- Source `getMaskRange`: `ipLow = (ipNum & prefixMask) >>> 0`,
`ipHigh = (((ipNum & prefixMask) >>> 0) + lowMask) >>> 0`; the four string
fields go through `toString`, whose exception propagates (`none`). -/
def getMaskRange (ipNum : Int) (prefixSize : Int) : Option SubnetAnalysis :=
  let prefixMask := getPrefixMask prefixSize
  let lowMask := getMask (32 - prefixSize)
  let ipLow := jsAnd ipNum (prefixMask : Int)
  let ipHigh := toUint32 ((ipLow : Int) + (lowMask : Int))
  match toString (.num (ipLow : Int)), toString (.num (ipHigh : Int)),
      toString (.num (prefixMask : Int)), toString (.num (lowMask : Int)) with
  | some ipLowStr, some ipHighStr, some prefixMaskStr, some invertedMaskStr =>
    some {
      ipLow := ipLow
      ipLowStr := ipLowStr
      ipHigh := ipHigh
      ipHighStr := ipHighStr
      prefixMask := prefixMask
      prefixMaskStr := prefixMaskStr
      prefixSize := prefixSize
      invertedMask := lowMask
      invertedMaskStr := invertedMaskStr
      invertedMaskSize := 32 - prefixSize }
  | _, _, _, _ => none

/-- The `for (prefixSize = 32; prefixSize >= 0; prefixSize -= 1)` loop of
source `getOptimalRange`: accept the candidate while
`maskRange.ipLow === ipNum && maskRange.ipHigh <= ipEndNum`, `break` at the
first failure.  The outer `Option` layer carries a `getMaskRange` exception. -/
def getOptimalRangeGo (ipNum ipEndNum : Int) :
    Nat → Option SubnetAnalysis → Option (Option SubnetAnalysis)
  | p, optimalRange =>
    match getMaskRange ipNum (p : Int) with
    | none => none
    | some maskRange =>
      if (maskRange.ipLow : Int) = ipNum ∧ (maskRange.ipHigh : Int) ≤ ipEndNum then
        match p with
        | 0 => some (some maskRange)
        | q + 1 => getOptimalRangeGo ipNum ipEndNum q (some maskRange)
      else some optimalRange

/-- Source `getOptimalRange`. -/
def getOptimalRange (ipNum ipEndNum : Int) : Option (Option SubnetAnalysis) :=
  getOptimalRangeGo ipNum ipEndNum 32 none

/-- The `while (ipCurNum <= ipEndNum)` loop of source `calculate`, with
explicit fuel; fuel exhaustion (never reached: each step advances
`ipCurNum`) is reported on the outer (exception) layer. -/
def calculateLoop (ipEndNum : Int) :
    Nat → Int → List SubnetAnalysis → Option (Option (List SubnetAnalysis))
  | fuel, ipCurNum, rangeCollection =>
    if ipCurNum ≤ ipEndNum then
      match fuel with
      | 0 => none
      | fuel' + 1 =>
        match getOptimalRange ipCurNum ipEndNum with
        | none => none
        | some none => some none
        | some (some optimalRange) =>
          calculateLoop ipEndNum fuel' ((optimalRange.ipHigh : Int) + 1)
            (rangeCollection ++ [optimalRange])
    else some (some rangeCollection)

/-- Source `calculate`: both endpoints through `toDecimal` with the codec
exception caught (`some none` = JS `null`), then the greedy decomposition
loop. -/
def calculate (ipStart ipEnd : IPAny) : Option (Option (List SubnetAnalysis)) :=
  match toDecimal ipStart, toDecimal ipEnd with
  | some ipStartNum, some ipEndNum =>
    if ipEndNum < ipStartNum then some none
    else calculateLoop ipEndNum (ipEndNum + 1 - ipStartNum).toNat ipStartNum []
  | _, _ => some none

/-- Source `calculateSubnetMask`: `toDecimal` exception caught (JS `null`),
but a `getMaskRange` exception propagates to the caller (outer `none`). -/
def calculateSubnetMask (ip : IPAny) (prefixSize : Int) :
    Option (Option SubnetAnalysis) :=
  match toDecimal ip with
  | none => some none
  | some ipNum =>
    match getMaskRange ipNum prefixSize with
    | none => none
    | some r => some (some r)

/-- The `for (prefixSize = 0; prefixSize < 32; prefixSize += 1)` loop of
source `calculateCIDRPrefix`:
`newPrefix = (prefix + (1 << (32 - (prefixSize + 1)))) >>> 0`, `break` when
`(subnetMaskNum & newPrefix) >>> 0 !== newPrefix`.  `k` is the remaining
iteration count `32 - prefixSize`. -/
def cidrPrefixGo (subnetMaskNum : Int) : Nat → Nat → Nat → Nat
  | 0, prefixSize, _ => prefixSize
  | k + 1, prefixSize, prefixAcc =>
    let newPrefix := toUint32 ((prefixAcc : Int)
      + jsShl1Signed (32 - ((prefixSize : Int) + 1)))
    if jsAnd subnetMaskNum (newPrefix : Int) ≠ newPrefix then prefixSize
    else cidrPrefixGo subnetMaskNum k (prefixSize + 1) newPrefix

/-- Source `calculateCIDRPrefix`: `toDecimal` exceptions caught (JS `null`);
the derived prefix size goes to `getMaskRange`, whose exception would
propagate (outer `none`). -/
def calculateCIDRPrefix (ip subnetMask : IPAny) : Option (Option SubnetAnalysis) :=
  match toDecimal ip, toDecimal subnetMask with
  | some ipNum, some subnetMaskNum =>
    match getMaskRange ipNum ((cidrPrefixGo subnetMaskNum 32 0 0 : Nat) : Int) with
    | none => none
    | some r => some (some r)
  | _, _ => some none

/-! ### Proof-side definitions -/

/-- The dotted-decimal string `toString` builds for the integer `n`. -/
def ipStr (n : Nat) : String :=
  Nat.repr (n / 256 / 256 / 256 % 256) ++ "." ++
    (Nat.repr (n / 256 / 256 % 256) ++ "." ++
      (Nat.repr (n / 256 % 256) ++ "." ++ Nat.repr (n % 256)))

/-- The acceptance test of `getOptimalRange`'s loop at prefix size `p`:
the block starts exactly at `ipNum` and does not pass `ipEndNum`. -/
def okRange (ipNum ipEndNum p : Int) : Bool :=
  match getMaskRange ipNum p with
  | some maskRange =>
    decide ((maskRange.ipLow : Int) = ipNum ∧ (maskRange.ipHigh : Int) ≤ ipEndNum)
  | none => false

/-- The blocks of `l`, in order, partition the interval `[s, e]`: the first
starts at `s`, each next starts right after the previous one ends, the last
ends at `e`. -/
def coversBlocks : Nat → Nat → List SubnetAnalysis → Prop
  | _, _, [] => False
  | s, e, [r] => r.ipLow = s ∧ r.ipHigh = e
  | s, e, r :: rest => r.ipLow = s ∧ r.ipHigh < e ∧ coversBlocks (r.ipHigh + 1) e rest

/-- The spec's description of the derived prefix size: "the length of the
longest contiguous run of leading 1-bits in `subnetMask`", counting from the
most significant bit (bit 31) down to the first 0-bit. -/
def leadingOnesSpec (m : Nat) : Nat :=
  ((List.range 32).takeWhile (fun i => m.testBit (31 - i))).length

/-! ### Closed forms of the mask builders -/

theorem jsShl1_eq (sh : Nat) (h : sh ≤ 31) : jsShl1 (sh : Int) = 2 ^ sh := by
  unfold jsShl1
  congr 1
  omega

theorem getPrefixMask_eq (p : Nat) (hp : p ≤ 32) :
    getPrefixMask (p : Int) = 2 ^ 32 - 2 ^ (32 - p) := by
  induction p with
  | zero => rfl
  | succ q ih =>
    have hq : q ≤ 32 := by omega
    unfold getPrefixMask at ih ⊢
    rw [Int.toNat_natCast] at ih ⊢
    rw [List.range_succ, List.foldl_append, ih hq]
    have h31 : ((32 : Int) - ((q : Nat) + 1)) = ((31 - q : Nat) : Int) := by omega
    simp only [List.foldl_cons, List.foldl_nil, h31, jsShl1_eq (31 - q) (by omega)]
    have h1 : 2 ^ (32 - q) = 2 * 2 ^ (31 - q) := by
      rw [← pow_succ']
      congr 1
      omega
    have h2 : 32 - (q + 1) = 31 - q := by omega
    have h3 : 2 ^ (32 - q) ≤ 2 ^ 32 := Nat.pow_le_pow_right (by omega) (by omega)
    rw [h2]
    omega

theorem getMask_eq (m : Nat) (hm : m ≤ 32) : getMask (m : Int) = 2 ^ m - 1 := by
  induction m with
  | zero => rfl
  | succ q ih =>
    have hq : q ≤ 32 := by omega
    unfold getMask at ih ⊢
    rw [Int.toNat_natCast] at ih ⊢
    rw [List.range_succ, List.foldl_append, ih hq]
    simp only [List.foldl_cons, List.foldl_nil, jsShl1_eq q (by omega)]
    have h1 : 2 ^ (q + 1) = 2 * 2 ^ q := by rw [← pow_succ']
    have h2 : 0 < 2 ^ q := Nat.pos_pow_of_pos q (by omega)
    omega

theorem toUint32_of_lt (n : Nat) (h : n < 2 ^ 32) : toUint32 (n : Int) = n := by
  unfold toUint32
  rw [Int.emod_eq_of_lt (by positivity) (by exact_mod_cast h)]
  exact Int.toNat_natCast n

/-! ### Bit-level facts -/

theorem and_eq_right_iff {x y : Nat} :
    x &&& y = y ↔ ∀ i, y.testBit i = true → x.testBit i = true := by
  constructor
  · intro h i hy
    have := congrArg (fun z => z.testBit i) h
    simp only [Nat.testBit_and, hy, Bool.and_true] at this
    exact this
  · intro h
    apply Nat.eq_of_testBit_eq
    intro i
    rw [Nat.testBit_and]
    cases hy : y.testBit i with
    | false => simp
    | true => simp [h i hy]

theorem and_eq_left_iff {x y : Nat} :
    x &&& y = x ↔ ∀ i, x.testBit i = true → y.testBit i = true := by
  rw [Nat.and_comm]
  exact and_eq_right_iff

theorem testBit_prefixMaskVal {j i : Nat} (hj : j ≤ 32) :
    (2 ^ 32 - 2 ^ j).testBit i = decide (j ≤ i ∧ i < 32) := by
  have hpow : 2 ^ j * 2 ^ (32 - j) = 2 ^ 32 := by
    rw [← pow_add]
    congr 1
    omega
  have hrw : 2 ^ 32 - 2 ^ j = 2 ^ j * (2 ^ (32 - j) - 1) := by
    rw [Nat.mul_sub, hpow]
    omega
  rw [hrw, Nat.testBit_mul_pow_two, Nat.testBit_two_pow_sub_one]
  by_cases h1 : j ≤ i
  · simp only [ge_iff_le, h1, decide_True, Bool.true_and, and_true, true_and]
    rw [decide_eq_decide]
    omega
  · simp [h1]

/-- The network part selected by the high mask: `x &&& (2^32 - 2^j)` clears
the low `j` bits of `x`. -/
theorem and_prefixMaskVal {x j : Nat} (hx : x < 2 ^ 32) (hj : j ≤ 32) :
    x &&& (2 ^ 32 - 2 ^ j) = 2 ^ j * (x / 2 ^ j) := by
  apply Nat.eq_of_testBit_eq
  intro i
  rw [Nat.testBit_and, testBit_prefixMaskVal hj, Nat.testBit_mul_pow_two]
  by_cases h1 : j ≤ i
  · have hdiv : x / 2 ^ j / 2 ^ (i - j) = x / 2 ^ i := by
      rw [Nat.div_div_eq_div_mul, ← pow_add]
      congr 2
      omega
    by_cases h2 : i < 32
    · simp only [h1, h2, and_true, true_and, decide_True, Bool.and_true, ge_iff_le,
        Bool.true_and]
      rw [Nat.testBit_to_div_mod, Nat.testBit_to_div_mod, hdiv]
    · have hxi : x < 2 ^ i := lt_of_lt_of_le hx (Nat.pow_le_pow_right (by omega) (by omega))
      have hdi : x / 2 ^ j < 2 ^ (i - j) := by
        apply Nat.div_lt_of_lt_mul
        calc x < 2 ^ i := hxi
        _ = 2 ^ j * 2 ^ (i - j) := by rw [← pow_add]; congr 1; omega
      simp only [h1, h2, and_false, decide_False, Bool.and_false, ge_iff_le, decide_True,
        Bool.true_and]
      rw [Nat.testBit_lt_two_pow hdi]
  · have h1' : ¬ (i ≥ j) := h1
    simp [h1, h1']

theorem and_prefixMaskVal_eq_self_iff {x j : Nat} (hx : x < 2 ^ 32) (hj : j ≤ 32) :
    x &&& (2 ^ 32 - 2 ^ j) = x ↔ 2 ^ j ∣ x := by
  rw [and_prefixMaskVal hx hj]
  constructor
  · intro h
    exact ⟨x / 2 ^ j, h.symm⟩
  · intro h
    exact Nat.mul_div_cancel' h

/-! ### The codec on strings -/

theorem toStringAux_eq (n : Nat) :
    toStringAux 3 n (Nat.repr (n % 256)) = ipStr n := rfl

theorem data_append (a b : String) : (a ++ b).data = a.data ++ b.data := by
  cases a
  cases b
  rfl

theorem ipStr_data (n : Nat) : (ipStr n).data =
    (Nat.repr (n / 256 / 256 / 256 % 256)).data ++ '.' ::
      ((Nat.repr (n / 256 / 256 % 256)).data ++ '.' ::
        ((Nat.repr (n / 256 % 256)).data ++ '.' :: (Nat.repr (n % 256)).data)) := by
  simp [ipStr, data_append]

theorem isDecimalIp_true_iff (n : Int) :
    isDecimalIp n = true ↔ 0 ≤ n ∧ n ≤ 4294967295 := by
  simp [isDecimalIp]

theorem toString_num_eq (n : Nat) (h : n ≤ 4294967295) :
    toString (.num (n : Int)) = some (ipStr n) := by
  simp only [toString]
  rw [if_pos ((isDecimalIp_true_iff _).mpr ⟨by positivity, by exact_mod_cast h⟩),
    Int.toNat_natCast, toStringAux_eq]

theorem toString_num_none (n : Int) (h : ¬ (0 ≤ n ∧ n ≤ 4294967295)) :
    toString (.num n) = none := by
  simp only [toString]
  rw [if_neg (by rw [isDecimalIp_true_iff]; exact h)]

theorem toString_str_eq (s : String) (h : isIp s = true) :
    toString (.str s) = some s := by
  simp [toString, h]

/-! ### Decimal octet groups -/

set_option maxRecDepth 4000 in
theorem octet_repr_facts : ∀ k, k < 256 →
    isOctetGroup (Nat.repr k).data = true ∧ parseDec (Nat.repr k).data = k := by
  decide

theorem isDigitChar_ne_dot {c : Char} (h : isDigitChar c = true) : c ≠ '.' := by
  intro heq
  subst heq
  exact absurd h (by decide)

theorem isOctetGroup_no_dot {g : List Char} (h : isOctetGroup g = true) :
    ∀ c ∈ g, c ≠ '.' := by
  intro c hc
  have hall : g.all isDigitChar = true := by
    unfold isOctetGroup at h
    exact (Bool.and_eq_true _ _ |>.mp h).2
  exact isDigitChar_ne_dot (List.all_eq_true.mp hall c hc)

/-! ### `splitOnDot` -/

theorem splitOnDot_ne_nil (cs : List Char) : splitOnDot cs ≠ [] := by
  induction cs with
  | nil => simp [splitOnDot]
  | cons c rest ih =>
    unfold splitOnDot
    by_cases h : c = '.'
    · simp [h]
    · simp only [h, if_false]
      match hrec : splitOnDot rest with
      | [] => simp
      | g :: gs => simp

theorem splitOnDot_sep (g rest : List Char) (h : ∀ c ∈ g, c ≠ '.') :
    splitOnDot (g ++ '.' :: rest) = g :: splitOnDot rest := by
  induction g with
  | nil => simp [splitOnDot]
  | cons c g' ih =>
    have hc : c ≠ '.' := h c (by simp)
    have ih' := ih (fun c hc => h c (by simp [hc]))
    simp only [List.cons_append, splitOnDot, List.append_eq, if_neg hc, ih']

theorem splitOnDot_no_dot (g : List Char) (h : ∀ c ∈ g, c ≠ '.') :
    splitOnDot g = [g] := by
  induction g with
  | nil => rfl
  | cons c g' ih =>
    have hc : c ≠ '.' := h c (by simp)
    have ih' := ih (fun c hc => h c (by simp [hc]))
    simp only [splitOnDot, if_neg hc, ih']

theorem splitOnDot_ipStr (n : Nat) :
    splitOnDot (ipStr n).data =
      [(Nat.repr (n / 256 / 256 / 256 % 256)).data,
       (Nat.repr (n / 256 / 256 % 256)).data,
       (Nat.repr (n / 256 % 256)).data,
       (Nat.repr (n % 256)).data] := by
  have hoct : ∀ m : Nat, m < 256 → ∀ c ∈ (Nat.repr m).data, c ≠ '.' := by
    intro m hm
    exact isOctetGroup_no_dot (octet_repr_facts m hm).1
  rw [ipStr_data,
    splitOnDot_sep _ _ (hoct _ (Nat.mod_lt _ (by omega))),
    splitOnDot_sep _ _ (hoct _ (Nat.mod_lt _ (by omega))),
    splitOnDot_sep _ _ (hoct _ (Nat.mod_lt _ (by omega))),
    splitOnDot_no_dot _ (hoct _ (Nat.mod_lt _ (by omega)))]

/-! ### The codec round trip -/

theorem isIp_ipStr (n : Nat) (h : n < 2 ^ 32) : isIp (ipStr n) = true := by
  simp only [isIp]
  rw [splitOnDot_ipStr]
  have f0 := octet_repr_facts (n % 256) (Nat.mod_lt _ (by omega))
  have f1 := octet_repr_facts (n / 256 % 256) (Nat.mod_lt _ (by omega))
  have f2 := octet_repr_facts (n / 256 / 256 % 256) (Nat.mod_lt _ (by omega))
  have f3 := octet_repr_facts (n / 256 / 256 / 256 % 256) (Nat.mod_lt _ (by omega))
  simp [f0.1, f1.1, f2.1, f3.1, f0.2, f1.2, f2.2, f3.2] <;> omega

theorem toDecimal_ipStr (n : Nat) (h : n < 2 ^ 32) :
    toDecimal (.str (ipStr n)) = some (n : Int) := by
  simp only [toDecimal]
  rw [if_pos (isIp_ipStr n h), splitOnDot_ipStr]
  have f0 := octet_repr_facts (n % 256) (Nat.mod_lt _ (by omega))
  have f1 := octet_repr_facts (n / 256 % 256) (Nat.mod_lt _ (by omega))
  have f2 := octet_repr_facts (n / 256 / 256 % 256) (Nat.mod_lt _ (by omega))
  have f3 := octet_repr_facts (n / 256 / 256 / 256 % 256) (Nat.mod_lt _ (by omega))
  simp only [f0.2, f1.2, f2.2, f3.2]
  have hnat : ((n / 256 / 256 / 256 % 256 * 256 + n / 256 / 256 % 256) * 256
      + n / 256 % 256) * 256 + n % 256 = n := by omega
  rw [hnat]

theorem toDecimal_str_parses (s : String) (h : isIp s = true) :
    ∃ m : Nat, m ≤ 4294967295 ∧ toDecimal (.str s) = some (m : Int) := by
  have h' := h
  simp only [isIp, Bool.and_eq_true, beq_iff_eq, List.all_eq_true,
    decide_eq_true_eq] at h'
  obtain ⟨⟨hlen, hoct⟩, hle⟩ := h'
  rcases hsplit : splitOnDot s.data with _ | ⟨a, _ | ⟨b, _ | ⟨c, _ | ⟨d, _ | ⟨e, t⟩⟩⟩⟩⟩ <;>
    rw [hsplit] at hlen <;> simp at hlen
  rw [hsplit] at hle
  have ha := hle a (by simp)
  have hb := hle b (by simp)
  have hc := hle c (by simp)
  have hd := hle d (by simp)
  refine ⟨((parseDec a * 256 + parseDec b) * 256 + parseDec c) * 256 + parseDec d,
    by omega, ?_⟩
  simp only [toDecimal]
  rw [if_pos h, hsplit]

theorem toDecimal_valid (v : IPAny) (n : Int) (h : toDecimal v = some n) :
    0 ≤ n ∧ n ≤ 4294967295 := by
  match v with
  | .num m =>
    simp only [toDecimal] at h
    by_cases hv : isDecimalIp m = true
    · rw [if_pos hv] at h
      cases h
      exact (isDecimalIp_true_iff _).mp hv
    · rw [if_neg hv] at h
      cases h
  | .str s =>
    by_cases hip : isIp s = true
    · obtain ⟨m, hm, heq⟩ := toDecimal_str_parses s hip
      rw [heq] at h
      cases h
      constructor
      · positivity
      · exact_mod_cast hm
    · simp only [toDecimal] at h
      rw [if_neg hip] at h
      cases h

/-! ### `getMaskRange` -/

theorem toUint32_lt (n : Int) : toUint32 n < 2 ^ 32 := by
  unfold toUint32
  have h1 := Int.emod_nonneg n (by norm_num : (4294967296 : Int) ≠ 0)
  have h2 := Int.emod_lt_of_pos n (by norm_num : (0 : Int) < 4294967296)
  omega

theorem toUint32_eq_toNat (n : Int) (h0 : 0 ≤ n) (h1 : n ≤ 4294967295) :
    toUint32 n = n.toNat := by
  unfold toUint32
  rw [Int.emod_eq_of_lt h0 (by omega)]

theorem getMaskRange_spec (ip : Int) (p : Nat) (hp : p ≤ 32) :
    ∃ r, getMaskRange ip (p : Int) = some r ∧
      r.ipLow = toUint32 ip &&& (2 ^ 32 - 2 ^ (32 - p)) ∧
      r.ipHigh = r.ipLow + (2 ^ (32 - p) - 1) ∧
      r.prefixMask = 2 ^ 32 - 2 ^ (32 - p) ∧
      r.invertedMask = 2 ^ (32 - p) - 1 ∧
      r.prefixSize = (p : Int) ∧
      r.invertedMaskSize = 32 - (p : Int) ∧
      r.ipLowStr = ipStr r.ipLow ∧ r.ipHighStr = ipStr r.ipHigh ∧
      r.prefixMaskStr = ipStr r.prefixMask ∧ r.invertedMaskStr = ipStr r.invertedMask := by
  have hpm := getPrefixMask_eq p hp
  have hc32 : (32 : Int) - (p : Int) = ((32 - p : Nat) : Int) := by omega
  have hlm : getMask ((32 : Int) - (p : Int)) = 2 ^ (32 - p) - 1 := by
    rw [hc32, getMask_eq _ (by omega)]
  have hj1 : 1 ≤ 2 ^ (32 - p) := Nat.one_le_two_pow
  have hj2 : 2 ^ (32 - p) ≤ 2 ^ 32 := Nat.pow_le_pow_right (by omega) (by omega)
  have hmlt : 2 ^ 32 - 2 ^ (32 - p) < 2 ^ 32 := by omega
  have e1 : jsAnd ip ((2 ^ 32 - 2 ^ (32 - p) : Nat) : Int)
      = toUint32 ip &&& (2 ^ 32 - 2 ^ (32 - p)) := by
    unfold jsAnd
    rw [toUint32_of_lt _ hmlt]
  have hLle : toUint32 ip &&& (2 ^ 32 - 2 ^ (32 - p)) ≤ 2 ^ 32 - 2 ^ (32 - p) :=
    Nat.and_le_right
  have hsum : (toUint32 ip &&& (2 ^ 32 - 2 ^ (32 - p))) + (2 ^ (32 - p) - 1) < 2 ^ 32 := by
    omega
  have e2 : toUint32 (((toUint32 ip &&& (2 ^ 32 - 2 ^ (32 - p)) : Nat) : Int)
        + ((2 ^ (32 - p) - 1 : Nat) : Int))
      = (toUint32 ip &&& (2 ^ 32 - 2 ^ (32 - p))) + (2 ^ (32 - p) - 1) := by
    rw [← Nat.cast_add, toUint32_of_lt _ hsum]
  simp only [getMaskRange, hpm, hlm]
  rw [e1, e2]
  rw [toString_num_eq _ (by omega),
    toString_num_eq _ (by omega),
    toString_num_eq _ (by omega),
    toString_num_eq _ (by omega)]
  exact ⟨_, rfl, rfl, rfl, rfl, rfl, rfl, rfl, rfl, rfl, rfl, rfl⟩

/-- The bounds of the block never fail to convert: `getMaskRange` succeeds for
every prefix size in `[0, 32]`, whatever the address. -/
theorem getMaskRange_isSome (ip : Int) (p : Nat) (hp : p ≤ 32) :
    ∃ r, getMaskRange ip (p : Int) = some r := by
  obtain ⟨r, hr, -⟩ := getMaskRange_spec ip p hp
  exact ⟨r, hr⟩

/-! ### `getOptimalRange` -/

theorem okRange_some_iff {n e p : Int} {r : SubnetAnalysis}
    (hr : getMaskRange n p = some r) :
    okRange n e p = true ↔ ((r.ipLow : Int) = n ∧ (r.ipHigh : Int) ≤ e) := by
  unfold okRange
  rw [hr, decide_eq_true_eq]

theorem okRange_iff (n e : Int) (p : Nat) (hp : p ≤ 32) (h0 : 0 ≤ n)
    (h1 : n ≤ 4294967295) :
    okRange n e (p : Int) = true ↔
      2 ^ (32 - p) ∣ n.toNat ∧ n + ((2 ^ (32 - p) : Nat) : Int) - 1 ≤ e := by
  obtain ⟨r, hr, hlow, hhigh, -, -, -, -, -⟩ := getMaskRange_spec n p hp
  have hN : ((n.toNat : Nat) : Int) = n := Int.toNat_of_nonneg h0
  have hNlt : n.toNat < 2 ^ 32 := by omega
  have htu : toUint32 n = n.toNat := toUint32_eq_toNat n h0 h1
  have hand := and_prefixMaskVal_eq_self_iff hNlt (show 32 - p ≤ 32 by omega)
  have hj1 : 1 ≤ 2 ^ (32 - p) := Nat.one_le_two_pow
  rw [okRange_some_iff hr, hlow, htu]
  constructor
  · rintro ⟨ha, hb⟩
    have ha' : n.toNat &&& (2 ^ 32 - 2 ^ (32 - p)) = n.toNat := by omega
    refine ⟨hand.mp ha', ?_⟩
    rw [hhigh, hlow, htu, ha'] at hb
    push_cast at hb
    omega
  · rintro ⟨ha, hb⟩
    have ha' : n.toNat &&& (2 ^ 32 - 2 ^ (32 - p)) = n.toNat := hand.mpr ha
    rw [hhigh, hlow, htu, ha']
    constructor
    · omega
    · push_cast
      omega

theorem okRange_mono (n e : Int) (h0 : 0 ≤ n) (h1 : n ≤ 4294967295) (p q : Nat)
    (hpq : p ≤ q) (hq : q ≤ 32) (h : okRange n e (p : Int) = true) :
    okRange n e (q : Int) = true := by
  rw [okRange_iff n e p (by omega) h0 h1] at h
  rw [okRange_iff n e q hq h0 h1]
  obtain ⟨hd, hh⟩ := h
  have hple : (2 : Nat) ^ (32 - q) ≤ 2 ^ (32 - p) :=
    Nat.pow_le_pow_right (by omega) (by omega)
  constructor
  · exact dvd_trans (pow_dvd_pow 2 (by omega)) hd
  · have hc : ((2 ^ (32 - q) : Nat) : Int) ≤ ((2 ^ (32 - p) : Nat) : Int) := by
      exact_mod_cast hple
    omega

theorem getOptimalRangeGo_spec (n e : Int) (h0 : 0 ≤ n) (h1 : n ≤ 4294967295) :
    ∀ p : Nat, p ≤ 32 → ∀ opt : Option SubnetAnalysis,
      (okRange n e (p : Int) = false → getOptimalRangeGo n e p opt = some opt) ∧
      (okRange n e (p : Int) = true →
        ∃ (q : Nat) (r : SubnetAnalysis), q ≤ p ∧ getMaskRange n (q : Int) = some r ∧
          getOptimalRangeGo n e p opt = some (some r) ∧
          (∀ t : Nat, q ≤ t → t ≤ p → okRange n e (t : Int) = true) ∧
          (q = 0 ∨ okRange n e ((q - 1 : Nat) : Int) = false)) := by
  intro p
  induction p with
  | zero =>
    intro hp opt
    obtain ⟨r, hr⟩ := getMaskRange_isSome n 0 (by omega)
    constructor
    · intro hok
      rw [getOptimalRangeGo]
      simp only [hr]
      rw [if_neg]
      intro hcond
      rw [(okRange_some_iff hr).mpr hcond] at hok
      cases hok
    · intro hok
      refine ⟨0, r, le_refl 0, hr, ?_, ?_, Or.inl rfl⟩
      · rw [getOptimalRangeGo]
        simp only [hr]
        rw [if_pos ((okRange_some_iff hr).mp hok)]
      · intro t ht1 ht2
        have : t = 0 := by omega
        subst this
        exact hok
  | succ p' ih =>
    intro hp opt
    obtain ⟨r, hr⟩ := getMaskRange_isSome n (p' + 1) (by omega)
    constructor
    · intro hok
      rw [getOptimalRangeGo]
      simp only [hr]
      rw [if_neg]
      intro hcond
      rw [(okRange_some_iff hr).mpr hcond] at hok
      cases hok
    · intro hok
      have hstep : getOptimalRangeGo n e (p' + 1) opt
          = getOptimalRangeGo n e p' (some r) := by
        rw [getOptimalRangeGo]
        simp only [hr]
        rw [if_pos ((okRange_some_iff hr).mp hok)]
      by_cases hp' : okRange n e (p' : Int) = true
      · obtain ⟨q, r', hq, hr', heq, hchain, hedge⟩ := (ih (by omega) (some r)).2 hp'
        refine ⟨q, r', by omega, hr', by rw [hstep, heq], ?_, hedge⟩
        intro t ht1 ht2
        by_cases htp : t ≤ p'
        · exact hchain t ht1 htp
        · have : t = p' + 1 := by omega
          subst this
          exact hok
      · have hfalse : okRange n e (p' : Int) = false := by
          cases hok' : okRange n e (p' : Int) with
          | true => exact absurd hok' hp'
          | false => rfl
        refine ⟨p' + 1, r, le_refl _, hr, ?_, ?_, Or.inr (by simpa using hfalse)⟩
        · rw [hstep, (ih (by omega) (some r)).1 hfalse]
        · intro t ht1 ht2
          have : t = p' + 1 := by omega
          subst this
          exact hok

theorem okRange_32 (n e : Int) (h0 : 0 ≤ n) (hne : n ≤ e) (he : e ≤ 4294967295) :
    okRange n e ((32 : Nat) : Int) = true := by
  rw [okRange_iff n e 32 (le_refl _) h0 (by omega)]
  constructor
  · simpa using one_dvd _
  · simp
    omega

/-- On a valid pair `n ≤ e` the loop always produces a block starting at `n`
and ending inside the range. -/
theorem getOptimalRange_valid (n e : Int) (h0 : 0 ≤ n) (hne : n ≤ e)
    (he : e ≤ 4294967295) :
    ∃ r : SubnetAnalysis, getOptimalRange n e = some (some r) ∧
      (r.ipLow : Int) = n ∧ r.ipLow ≤ r.ipHigh ∧ (r.ipHigh : Int) ≤ e := by
  have h1 : n ≤ 4294967295 := by omega
  obtain ⟨q, r, hq, hr, heq, hchain, -⟩ :=
    (getOptimalRangeGo_spec n e h0 h1 32 (le_refl _) none).2 (okRange_32 n e h0 hne he)
  have hokq := hchain q (le_refl _) hq
  obtain ⟨hcl, hch⟩ := (okRange_some_iff hr).mp hokq
  obtain ⟨r', hr', hlow, hhigh, -, -, -, -, -⟩ := getMaskRange_spec n q (by omega)
  rw [hr] at hr'
  cases hr'
  refine ⟨r, heq, hcl, ?_, hch⟩
  rw [hhigh]
  omega

/-! ### Exact decomposition of a range into blocks -/

theorem coversBlocks_ne_nil {s e : Nat} {l : List SubnetAnalysis}
    (h : coversBlocks s e l) : l ≠ [] := by
  cases l with
  | nil => cases h
  | cons r rest => simp

theorem coversBlocks_cons {s e : Nat} {r : SubnetAnalysis} {l : List SubnetAnalysis}
    (hne : l ≠ []) (h1 : r.ipLow = s) (h2 : r.ipHigh < e)
    (h3 : coversBlocks (r.ipHigh + 1) e l) : coversBlocks s e (r :: l) := by
  cases l with
  | nil => cases hne rfl
  | cons x xs => exact ⟨h1, h2, h3⟩

theorem coversBlocks_head {s e : Nat} {r : SubnetAnalysis} {l : List SubnetAnalysis}
    (h : coversBlocks s e (r :: l)) : r.ipLow = s := by
  cases l with
  | nil => exact h.1
  | cons x xs => exact h.1

/-- Every address of `[s, e]` lies in some block, and only addresses of
`[s, e]` do. -/
theorem coversBlocks_mem_iff {l : List SubnetAnalysis} :
    ∀ {s e : Nat}, coversBlocks s e l → (∀ r ∈ l, r.ipLow ≤ r.ipHigh) →
      ∀ a : Nat, (s ≤ a ∧ a ≤ e) ↔ ∃ r ∈ l, r.ipLow ≤ a ∧ a ≤ r.ipHigh := by
  induction l with
  | nil => intro s e h; cases h
  | cons r rest ih =>
    intro s e h hlh a
    cases rest with
    | nil =>
      obtain ⟨h1, h2⟩ := h
      have hr := hlh r (by simp)
      subst h1
      subst h2
      constructor
      · intro ha
        exact ⟨r, by simp, ha⟩
      · rintro ⟨r', hr', ha⟩
        simp at hr'
        subst hr'
        exact ha
    | cons x xs =>
      obtain ⟨h1, h2, h3⟩ := h
      have hr := hlh r (by simp)
      have ih' := ih h3 (fun r' hr' => hlh r' (by simp [hr'])) a
      subst h1
      constructor
      · intro ha
        by_cases hsplit : a ≤ r.ipHigh
        · exact ⟨r, by simp, ha.1, hsplit⟩
        · obtain ⟨r', hmem, hcover⟩ := ih'.mp ⟨by omega, ha.2⟩
          exact ⟨r', by simp [hmem], hcover⟩
      · rintro ⟨r', hmem, hcover⟩
        rcases List.mem_cons.mp hmem with heq | hmem'
        · subst heq
          omega
        · have := ih'.mpr ⟨r', hmem', hcover⟩
          omega

/-- Every block of `l` starts at or after `s`. -/
theorem coversBlocks_low_ge {l : List SubnetAnalysis} :
    ∀ {s e : Nat}, coversBlocks s e l → (∀ r ∈ l, r.ipLow ≤ r.ipHigh) →
      ∀ r ∈ l, s ≤ r.ipLow := by
  induction l with
  | nil => intro s e h; cases h
  | cons r rest ih =>
    intro s e h hlh r' hmem
    rcases List.mem_cons.mp hmem with heq | hmem'
    · subst heq
      have := coversBlocks_head h
      omega
    · cases rest with
      | nil => cases hmem'
      | cons x xs =>
        obtain ⟨h1, h2, h3⟩ := h
        have hr := hlh r (by simp)
        have := ih h3 (fun r'' hr'' => hlh r'' (by simp [hr''])) r' hmem'
        omega

/-- The blocks are pairwise disjoint and in ascending address order. -/
theorem coversBlocks_pairwise {l : List SubnetAnalysis} :
    ∀ {s e : Nat}, coversBlocks s e l → (∀ r ∈ l, r.ipLow ≤ r.ipHigh) →
      l.Pairwise (fun a b => a.ipHigh < b.ipLow) := by
  induction l with
  | nil => intro s e h; cases h
  | cons r rest ih =>
    intro s e h hlh
    cases rest with
    | nil => simp
    | cons x xs =>
      obtain ⟨h1, h2, h3⟩ := h
      have hrest : ∀ r' ∈ x :: xs, r'.ipLow ≤ r'.ipHigh :=
        fun r' hr' => hlh r' (by simp [hr'])
      refine List.pairwise_cons.mpr ⟨?_, ih h3 hrest⟩
      intro r' hmem
      have := coversBlocks_low_ge h3 hrest r' hmem
      omega

/-- Consecutive blocks of the decomposition are adjacent: each block begins
right after the previous one ends. -/
theorem coversBlocks_adjacent {l : List SubnetAnalysis} :
    ∀ {s e : Nat}, coversBlocks s e l →
      ∀ i : Nat, (h : i + 1 < l.length) →
        (l.get ⟨i + 1, h⟩).ipLow = (l.get ⟨i, by omega⟩).ipHigh + 1 := by
  induction l with
  | nil => intro s e h; cases h
  | cons r rest ih =>
    intro s e h i hi
    cases rest with
    | nil => simp at hi
    | cons x xs =>
      obtain ⟨h1, h2, h3⟩ := h
      cases i with
      | zero =>
        simpa using coversBlocks_head h3
      | succ i' =>
        have hi' : i' + 1 < (x :: xs).length := by simpa using hi
        simpa using ih h3 i' hi'

/-! ### The `calculate` loop -/

theorem calculateLoop_step (e : Int) (fuel : Nat) (cur : Int)
    (acc : List SubnetAnalysis) :
    calculateLoop e fuel cur acc = if cur ≤ e then
      match fuel with
      | 0 => none
      | fuel' + 1 =>
        match getOptimalRange cur e with
        | none => none
        | some none => some none
        | some (some optimalRange) =>
          calculateLoop e fuel' ((optimalRange.ipHigh : Int) + 1)
            (acc ++ [optimalRange])
    else some (some acc) := by
  rw [calculateLoop.eq_def]

theorem calculateLoop_spec (e : Int) (he : e ≤ 4294967295) :
    ∀ (k : Nat) (cur : Int) (acc : List SubnetAnalysis),
      0 ≤ cur → cur ≤ e → (e + 1 - cur).toNat ≤ k →
      ∃ l, calculateLoop e k cur acc = some (some (acc ++ l)) ∧
        coversBlocks cur.toNat e.toNat l ∧
        ∀ r ∈ l, r.ipLow ≤ r.ipHigh := by
  intro k
  induction k with
  | zero =>
    intro cur acc h0 h1 h2
    exfalso
    omega
  | succ k ih =>
    intro cur acc h0 h1 h2
    obtain ⟨r, hopt, hlow, hlh, hhigh⟩ := getOptimalRange_valid cur e h0 h1 he
    rw [calculateLoop_step, if_pos h1]
    simp only [hopt]
    by_cases hend : (r.ipHigh : Int) = e
    · refine ⟨[r], ?_, ?_, ?_⟩
      · rw [calculateLoop_step, if_neg (by omega : ¬ ((r.ipHigh : Int) + 1 ≤ e))]
      · show r.ipLow = cur.toNat ∧ r.ipHigh = e.toNat
        omega
      · intro r' hr'
        simp at hr'
        subst hr'
        exact hlh
    · have hlt : (r.ipHigh : Int) < e := lt_of_le_of_ne hhigh hend
      obtain ⟨l', heq, hcov, hlh'⟩ :=
        ih ((r.ipHigh : Int) + 1) (acc ++ [r]) (by omega) (by omega) (by omega)
      have hcur : ((r.ipHigh : Int) + 1).toNat = r.ipHigh + 1 := by omega
      rw [hcur] at hcov
      refine ⟨r :: l', ?_, ?_, ?_⟩
      · rw [heq]
        simp
      · refine coversBlocks_cons (coversBlocks_ne_nil hcov) (by omega) (by omega) hcov
      · intro r' hr'
        rcases List.mem_cons.mp hr' with heq' | hmem'
        · subst heq'
          exact hlh
        · exact hlh' r' hmem'

/-- Shared well-behavedness of `calculate` on a parseable, ordered pair. -/
theorem calculate_valid (a b : IPAny) (sa sb : Int) (ha : toDecimal a = some sa)
    (hb : toDecimal b = some sb) (hle : sa ≤ sb) :
    ∃ l, calculate a b = some (some l) ∧ coversBlocks sa.toNat sb.toNat l ∧
      (∀ r ∈ l, r.ipLow ≤ r.ipHigh) ∧ l ≠ [] := by
  have hva := toDecimal_valid a sa ha
  have hvb := toDecimal_valid b sb hb
  obtain ⟨l, heq, hcov, hlh⟩ :=
    calculateLoop_spec sb hvb.2 (sb + 1 - sa).toNat sa [] hva.1 hle (le_refl _)
  refine ⟨l, ?_, hcov, hlh, coversBlocks_ne_nil hcov⟩
  simp only [calculate, ha, hb]
  rw [if_neg (by omega : ¬ sb < sa)]
  simpa using heq

/-! ### The prefix-derivation loop of `calculateCIDRPrefix` -/

theorem cidrPrefixGo_le (m : Int) : ∀ (k p acc : Nat),
    cidrPrefixGo m k p acc ≤ p + k := by
  intro k
  induction k with
  | zero => intro p acc; simp [cidrPrefixGo]
  | succ k ih =>
    intro p acc
    rw [cidrPrefixGo]
    by_cases hc : jsAnd m ((toUint32 ((acc : Int)
        + jsShl1Signed (32 - ((p : Int) + 1))) : Nat) : Int)
        ≠ toUint32 ((acc : Int) + jsShl1Signed (32 - ((p : Int) + 1)))
    · rw [if_pos hc]
      omega
    · rw [if_neg hc]
      have := ih (p + 1) (toUint32 ((acc : Int) + jsShl1Signed (32 - ((p : Int) + 1))))
      omega

theorem and_prefixMaskVal_eq_right_iff {x j : Nat} (hx : x < 2 ^ 32) (hj : j ≤ 32) :
    x &&& (2 ^ 32 - 2 ^ j) = 2 ^ 32 - 2 ^ j ↔
      ∀ i, j ≤ i → i < 32 → x.testBit i = true := by
  rw [and_eq_right_iff]
  constructor
  · intro h i h1 h2
    exact h i (by rw [testBit_prefixMaskVal hj]; simp [h1, h2])
  · intro h i hb
    rw [testBit_prefixMaskVal hj, decide_eq_true_eq] at hb
    exact h i hb.1 hb.2

/-- One step of the accumulator: adding the next leading bit to the partial
prefix mask of `p` ones gives the prefix mask of `p + 1` ones. -/
theorem cidr_newPrefix_eq (p : Nat) (hp : p ≤ 31) :
    toUint32 (((2 ^ 32 - 2 ^ (32 - p) : Nat) : Int)
        + jsShl1Signed (32 - ((p : Int) + 1)))
      = 2 ^ 32 - 2 ^ (32 - (p + 1)) := by
  have hsh : ((32 - ((p : Int) + 1)) % 32).toNat = 31 - p := by omega
  have hj2 : (2 : Nat) ^ (32 - p) ≤ 2 ^ 32 := Nat.pow_le_pow_right (by omega) (by omega)
  have hjp : (2 : Nat) ^ (32 - p) = 2 * 2 ^ (31 - p) := by
    rw [← pow_succ']
    congr 1
    omega
  have hexp : 32 - (p + 1) = 31 - p := by omega
  rw [hexp]
  unfold jsShl1Signed
  rw [hsh]
  by_cases hp0 : p = 0
  · subst hp0
    rw [if_pos rfl]
    unfold toUint32
    norm_num
    rfl
  · rw [if_neg (by omega)]
    have h31 : (2 : Nat) ^ (31 - p) ≤ 2 ^ 32 := Nat.pow_le_pow_right (by omega) (by omega)
    have h1p : (1 : Nat) ≤ 2 ^ (31 - p) := Nat.one_le_two_pow
    have hpow : ((2 : Nat) ^ (31 - p) : Int) = (2 : Int) ^ (31 - p) := by push_cast; rfl
    have hcast : ((2 ^ 32 - 2 ^ (32 - p) : Nat) : Int) + (2 : Int) ^ (31 - p)
        = ((2 ^ 32 - 2 ^ (31 - p) : Nat) : Int) := by
      rw [← hpow]
      omega
    rw [hcast, toUint32_of_lt]
    omega

theorem cidrPrefixGo_spec (M : Nat) (hM : M < 2 ^ 32) :
    ∀ (k p : Nat), k + p = 32 →
      (∀ i, i < p → M.testBit (31 - i) = true) →
      cidrPrefixGo (M : Int) k p (2 ^ 32 - 2 ^ (32 - p))
        = p + ((List.range k).takeWhile (fun i => M.testBit (31 - (p + i)))).length := by
  intro k
  induction k with
  | zero => intro p hk hbits; simp [cidrPrefixGo]
  | succ k ih =>
    intro p hk hbits
    have hp : p ≤ 31 := by omega
    rw [cidrPrefixGo]
    rw [cidr_newPrefix_eq p hp]
    have hcond : jsAnd (M : Int) ((2 ^ 32 - 2 ^ (32 - (p + 1)) : Nat) : Int)
        = M &&& (2 ^ 32 - 2 ^ (32 - (p + 1))) := by
      unfold jsAnd
      rw [toUint32_eq_toNat (M : Int) (by positivity) (by exact_mod_cast by omega : (M : Int) ≤ 4294967295),
        Int.toNat_natCast,
        toUint32_of_lt _ (by
          have : (2 : Nat) ^ (32 - (p + 1)) ≥ 1 := Nat.one_le_two_pow
          omega)]
    have hiff := and_prefixMaskVal_eq_right_iff hM (show 32 - (p + 1) ≤ 32 by omega)
    by_cases hbit : M.testBit (31 - p) = true
    · have hall : M &&& (2 ^ 32 - 2 ^ (32 - (p + 1))) = 2 ^ 32 - 2 ^ (32 - (p + 1)) := by
        rw [hiff]
        intro i h1 h2
        by_cases hi : i = 31 - p
        · subst hi
          exact hbit
        · have : 31 - i < p := by omega
          have := hbits (31 - i) this
          have hii : 31 - (31 - i) = i := by omega
          rw [hii] at this
          exact this
      rw [if_neg (by rw [hcond]; simpa using hall)]
      have ih' := ih (p + 1) (by omega) (by
        intro i hi
        by_cases hip : i < p
        · exact hbits i hip
        · have : i = p := by omega
          subst this
          exact hbit)
      rw [ih']
      have hrange : List.range (k + 1) = 0 :: (List.range k).map Nat.succ :=
        List.range_succ_eq_map k
      rw [hrange, List.takeWhile_cons_of_pos (by simpa using hbit),
        List.takeWhile_map]
      have hfun : ((fun i => M.testBit (31 - (p + i))) ∘ Nat.succ)
          = (fun i => M.testBit (31 - (p + 1 + i))) := by
        funext i
        simp only [Function.comp]
        congr 1
        omega
      rw [hfun]
      simp
      omega
    · have hnotall : ¬ M &&& (2 ^ 32 - 2 ^ (32 - (p + 1))) = 2 ^ 32 - 2 ^ (32 - (p + 1)) := by
        rw [hiff]
        intro hcontra
        exact hbit (hcontra (31 - p) (by omega) (by omega))
      rw [if_pos (by rw [hcond]; simpa using hnotall)]
      have hrange : List.range (k + 1) = 0 :: (List.range k).map Nat.succ :=
        List.range_succ_eq_map k
      rw [hrange, List.takeWhile_cons_of_neg (by simpa using hbit)]
      simp

theorem cidrPrefixGo_eq_leadingOnes (M : Nat) (hM : M < 2 ^ 32) :
    cidrPrefixGo (M : Int) 32 0 0 = leadingOnesSpec M := by
  have h := cidrPrefixGo_spec M hM 32 0 (by omega) (by omega)
  norm_num at h
  rw [h]
  unfold leadingOnesSpec
  congr 1

theorem leadingOnesSpec_le (m : Nat) : leadingOnesSpec m ≤ 32 := by
  unfold leadingOnesSpec
  calc ((List.range 32).takeWhile _).length ≤ (List.range 32).length :=
    (List.takeWhile_sublist _).length_le
  _ = 32 := by simp

/-! ### Totality of the entry points -/

theorem calculate_total (a b : IPAny) : ∃ v, calculate a b = some v := by
  match ha : toDecimal a with
  | none =>
    refine ⟨none, ?_⟩
    simp only [calculate, ha]
  | some sa =>
    match hb : toDecimal b with
    | none =>
      refine ⟨none, ?_⟩
      simp only [calculate, ha, hb]
    | some sb =>
      by_cases hlt : sb < sa
      · refine ⟨none, ?_⟩
        simp only [calculate, ha, hb]
        rw [if_pos hlt]
      · obtain ⟨l, hl, -, -, -⟩ := calculate_valid a b sa sb ha hb (by omega)
        exact ⟨some l, hl⟩

theorem calculateCIDRPrefix_total (a b : IPAny) :
    ∃ v, calculateCIDRPrefix a b = some v := by
  match ha : toDecimal a with
  | none =>
    refine ⟨none, ?_⟩
    simp only [calculateCIDRPrefix, ha]
  | some ipNum =>
    match hb : toDecimal b with
    | none =>
      refine ⟨none, ?_⟩
      simp only [calculateCIDRPrefix, ha, hb]
    | some mNum =>
      have hle : cidrPrefixGo mNum 32 0 0 ≤ 32 := by
        simpa using cidrPrefixGo_le mNum 32 0 0
      obtain ⟨r, hr⟩ := getMaskRange_isSome ipNum _ hle
      refine ⟨some r, ?_⟩
      simp only [calculateCIDRPrefix, ha, hb, hr]

theorem calculateSubnetMask_ok (ip : IPAny) (p : Nat) (hp : p ≤ 32) :
    ∃ v, calculateSubnetMask ip (p : Int) = some v := by
  match hip : toDecimal ip with
  | none =>
    refine ⟨none, ?_⟩
    simp only [calculateSubnetMask, hip]
  | some ipNum =>
    obtain ⟨r, hr⟩ := getMaskRange_isSome ipNum p hp
    refine ⟨some r, ?_⟩
    simp only [calculateSubnetMask, hip, hr]

/-! ### Full characterisation of `getOptimalRange` -/

theorem getOptimalRange_full (n e : Int) (h0 : 0 ≤ n) (h1 : n ≤ 4294967295) :
    ∃ res, getOptimalRange n e = some res ∧
      (res = none ↔ okRange n e ((32 : Nat) : Int) = false) ∧
      (∀ r, res = some r →
        getMaskRange n r.prefixSize = some r ∧
        okRange n e r.prefixSize = true ∧
        ∀ t : Nat, (t : Int) < r.prefixSize → okRange n e (t : Int) = false) := by
  by_cases hok : okRange n e ((32 : Nat) : Int) = true
  · obtain ⟨q, r, hq, hr, heq, hchain, hedge⟩ :=
      (getOptimalRangeGo_spec n e h0 h1 32 (le_refl _) none).2 hok
    obtain ⟨r', hr', -, -, -, -, hps, -, -, -, -, -⟩ := getMaskRange_spec n q (by omega)
    rw [hr] at hr'
    cases hr'
    refine ⟨some r, heq, ?_, ?_⟩
    · constructor
      · intro hcontra
        cases hcontra
      · intro hcontra
        rw [hok] at hcontra
        cases hcontra
    · intro r'' hr''
      cases hr''
      refine ⟨by rw [hps]; exact hr, by rw [hps]; exact hchain q (le_refl _) hq, ?_⟩
      intro t ht
      rw [hps] at ht
      have htq : t < q := by exact_mod_cast ht
      rcases hedge with h0q | hqf
      · omega
      · by_contra hcontra
        have hct : okRange n e ((t : Nat) : Int) = true := by
          cases hc : okRange n e ((t : Nat) : Int) with
          | true => rfl
          | false => exact absurd hc hcontra
        have := okRange_mono n e h0 h1 t (q - 1) (by omega) (by omega) hct
        rw [this] at hqf
        cases hqf
  · have hfalse : okRange n e ((32 : Nat) : Int) = false := by
      cases hc : okRange n e ((32 : Nat) : Int) with
      | true => exact absurd hc hok
      | false => rfl
    have heq := (getOptimalRangeGo_spec n e h0 h1 32 (le_refl _) none).1 hfalse
    refine ⟨none, heq, ⟨fun _ => hfalse, fun _ => rfl⟩, ?_⟩
    intro r hr
    cases hr

/-! ## Claim theorems -/

/-- Complementarity of the two mask builders on the whole `[0, 32]` range. -/
theorem mask_complement : ∀ j : Nat, j < 33 →
    (2 ^ 32 - 2 ^ j) &&& (2 ^ j - 1) = 0 ∧
    (2 ^ 32 - 2 ^ j) ||| (2 ^ j - 1) = 4294967295 := by decide

/-- C9: for every `n` in `[0, 32]`, `getPrefixMask n` is the bitmask with the
`n` most-significant of 32 bits set (so `getPrefixMask 0 = 0` and
`getPrefixMask 32 = 0xFFFFFFFF`), `getMask m` is the bitmask with the `m`
least-significant bits set, and the two are complementary:
`getPrefixMask n &&& getMask (32-n) = 0` and
`getPrefixMask n ||| getMask (32-n) = 0xFFFFFFFF`. -/
theorem claim9_theorem : (∀ n : Nat, n ≤ 32 →
    getPrefixMask (n : Int) = (2 ^ n - 1) * 2 ^ (32 - n) ∧
    getMask (n : Int) = 2 ^ n - 1 ∧
    (∀ i : Nat, i < 32 → (getPrefixMask (n : Int)).testBit i = decide (32 - n ≤ i)) ∧
    (∀ i : Nat, i < 32 → (getMask (n : Int)).testBit i = decide (i < n)) ∧
    getPrefixMask (n : Int) &&& getMask ((32 - n : Nat) : Int) = 0 ∧
    getPrefixMask (n : Int) ||| getMask ((32 - n : Nat) : Int) = 4294967295) ∧
    getPrefixMask (0 : Int) = 0 ∧ getPrefixMask (32 : Int) = 4294967295 ∧
    getMask (0 : Int) = 0 ∧ getMask (32 : Int) = 4294967295 := by decide

/-- C9 witness: the instance `n = 24`. -/
theorem claim9_witness : (24 : Nat) ≤ 32 ∧
    getPrefixMask ((24 : Nat) : Int) = (2 ^ 24 - 1) * 2 ^ (32 - 24) ∧
    getMask ((24 : Nat) : Int) = 2 ^ 24 - 1 := by
  have h := claim9_theorem.1 24 (by decide)
  exact ⟨by decide, h.1, h.2.1⟩

/-- C5: for every 32-bit address and every `prefixSize` in `[0, 32]`, the
descriptor returned by `getMaskRange` satisfies `ipHigh = ipLow ||| invertedMask`,
`ipLow = ipLow &&& prefixMask`, `prefixMask &&& invertedMask = 0`,
`prefixMask ||| invertedMask = 0xFFFFFFFF` and `invertedMaskSize = 32 - prefixSize`. -/
theorem claim5_theorem (ip : Int) (p : Nat) (h0 : 0 ≤ ip) (h1 : ip ≤ 4294967295)
    (hp : p ≤ 32) :
    ∃ r, getMaskRange ip (p : Int) = some r ∧
      r.ipHigh = r.ipLow ||| r.invertedMask ∧
      r.ipLow = r.ipLow &&& r.prefixMask ∧
      r.prefixMask &&& r.invertedMask = 0 ∧
      r.prefixMask ||| r.invertedMask = 4294967295 ∧
      r.invertedMaskSize = 32 - r.prefixSize := by
  obtain ⟨r, hr, hlow, hhigh, hpm, him, hps, hims, -, -, -, -⟩ :=
    getMaskRange_spec ip p hp
  have hxlt : toUint32 ip < 2 ^ 32 := toUint32_lt ip
  have hj : 32 - p ≤ 32 := by omega
  have hjpos : 0 < (2 : Nat) ^ (32 - p) := Nat.pos_pow_of_pos _ (by omega)
  have hdecomp := and_prefixMaskVal hxlt hj
  refine ⟨r, hr, ?_, ?_, ?_, ?_, ?_⟩
  · rw [hhigh, hlow, him, hdecomp]
    exact Nat.mul_add_lt_is_or (by omega) _
  · have hLlt : toUint32 ip &&& (2 ^ 32 - 2 ^ (32 - p)) < 2 ^ 32 :=
      lt_of_le_of_lt Nat.and_le_right (by
        have := Nat.one_le_two_pow (n := 32 - p)
        omega)
    have h2 := and_prefixMaskVal hLlt hj
    rw [hlow, hpm, h2, hdecomp, Nat.mul_div_cancel_left _ hjpos]
  · rw [hpm, him]
    exact (mask_complement (32 - p) (by omega)).1
  · rw [hpm, him]
    exact (mask_complement (32 - p) (by omega)).2
  · rw [hims, hps]

/-- C5 witness: the instance `ip = 2.3.4.5`, `p = 24`. -/
theorem claim5_witness : (0 : Int) ≤ 33752069 ∧ (33752069 : Int) ≤ 4294967295 ∧
    (24 : Nat) ≤ 32 ∧
    (∃ r, getMaskRange 33752069 ((24 : Nat) : Int) = some r ∧
      r.ipHigh = r.ipLow ||| r.invertedMask ∧
      r.ipLow = r.ipLow &&& r.prefixMask ∧
      r.prefixMask &&& r.invertedMask = 0 ∧
      r.prefixMask ||| r.invertedMask = 4294967295 ∧
      r.invertedMaskSize = 32 - r.prefixSize) :=
  ⟨by decide, by decide, by decide,
   claim5_theorem 33752069 24 (by decide) (by decide) (by decide)⟩

/-- C6: for every 32-bit address and every `prefixSize` in `[0, 32]`,
`getMaskRange` computes `low = address &&& prefixMask` (truncating host bits
set in the address) and `high = low + hostMask (32 - prefixSize)`, and never
fails; `calculateSubnetMask "2.3.4.5" 24` yields low `2.3.4.0`, high
`2.3.4.255`, prefix mask `255.255.255.0`, and
`calculateSubnetMask "1.2.3.4" 32` yields `low = high = 1.2.3.4`. -/
theorem claim6_theorem (ip : Int) (p : Nat) (h0 : 0 ≤ ip) (h1 : ip ≤ 4294967295)
    (hp : p ≤ 32) :
    (∃ r, getMaskRange ip (p : Int) = some r ∧
      r.ipLow = ip.toNat &&& getPrefixMask (p : Int) ∧
      r.ipHigh = r.ipLow + getMask (32 - (p : Int))) ∧
    calculateSubnetMask (.str "2.3.4.5") 24 = some (some
      { ipLow := 33752064, ipLowStr := "2.3.4.0", ipHigh := 33752319,
        ipHighStr := "2.3.4.255", prefixMask := 4294967040,
        prefixMaskStr := "255.255.255.0", prefixSize := 24,
        invertedMask := 255, invertedMaskStr := "0.0.0.255",
        invertedMaskSize := 8 }) ∧
    calculateSubnetMask (.str "1.2.3.4") 32 = some (some
      { ipLow := 16909060, ipLowStr := "1.2.3.4", ipHigh := 16909060,
        ipHighStr := "1.2.3.4", prefixMask := 4294967295,
        prefixMaskStr := "255.255.255.255", prefixSize := 32,
        invertedMask := 0, invertedMaskStr := "0.0.0.0",
        invertedMaskSize := 0 }) := by
  refine ⟨?_, by decide, by decide⟩
  obtain ⟨r, hr, hlow, hhigh, -, -, -, -, -, -, -, -⟩ := getMaskRange_spec ip p hp
  have hc32 : (32 : Int) - (p : Int) = ((32 - p : Nat) : Int) := by omega
  have hlm : getMask ((32 : Int) - (p : Int)) = 2 ^ (32 - p) - 1 := by
    rw [hc32, getMask_eq _ (by omega)]
  refine ⟨r, hr, ?_, ?_⟩
  · rw [hlow, toUint32_eq_toNat ip h0 h1, getPrefixMask_eq p hp]
  · rw [hhigh, hlm]

/-- C6 witness: the instance `ip = 2.3.4.5`, `p = 24`. -/
theorem claim6_witness : (0 : Int) ≤ 33752069 ∧ (33752069 : Int) ≤ 4294967295 ∧
    (24 : Nat) ≤ 32 ∧
    (∃ r, getMaskRange 33752069 ((24 : Nat) : Int) = some r ∧
      r.ipLow = (33752069 : Int).toNat &&& getPrefixMask ((24 : Nat) : Int) ∧
      r.ipHigh = r.ipLow + getMask (32 - ((24 : Nat) : Int))) :=
  ⟨by decide, by decide, by decide,
   (claim6_theorem 33752069 24 (by decide) (by decide) (by decide)).1⟩

/-- C2: for valid 32-bit `ipNum` and `ipEndNum`, `getOptimalRange` returns
the descriptor with the smallest prefix size whose block starts exactly at
`ipNum` and whose high end does not exceed `ipEndNum` (the `okRange` test),
and returns the JS `null` only when even the `/32` block fails that test. -/
theorem claim2_theorem (n e : Int) (h0 : 0 ≤ n) (h1 : n ≤ 4294967295)
    (h2 : 0 ≤ e) (h3 : e ≤ 4294967295) :
    ∃ res, getOptimalRange n e = some res ∧
      (res = none ↔ okRange n e ((32 : Nat) : Int) = false) ∧
      (∀ r, res = some r →
        getMaskRange n r.prefixSize = some r ∧
        okRange n e r.prefixSize = true ∧
        ∀ t : Nat, (t : Int) < r.prefixSize → okRange n e (t : Int) = false) :=
  getOptimalRange_full n e h0 h1

/-- C2 witness: the instance `ipNum = 10.0.2.0`, `ipEndNum = 10.0.3.255`. -/
theorem claim2_witness : (0 : Int) ≤ 167772672 ∧ (167772672 : Int) ≤ 4294967295 ∧
    (0 : Int) ≤ 167773183 ∧ (167773183 : Int) ≤ 4294967295 ∧
    (∃ res, getOptimalRange 167772672 167773183 = some res ∧
      (res = none ↔ okRange 167772672 167773183 ((32 : Nat) : Int) = false) ∧
      (∀ r, res = some r →
        getMaskRange 167772672 r.prefixSize = some r ∧
        okRange 167772672 167773183 r.prefixSize = true ∧
        ∀ t : Nat, (t : Int) < r.prefixSize →
          okRange 167772672 167773183 (t : Int) = false)) :=
  ⟨by decide, by decide, by decide, by decide,
   claim2_theorem 167772672 167773183 (by decide) (by decide) (by decide) (by decide)⟩

/-- C10: for `0 ≤ ipNum ≤ ipEndNum ≤ 4294967295`, `getOptimalRange` never
returns the JS `null` (the `/32` candidate always passes), so `calculate`
on a valid ordered pair of integer endpoints returns a non-empty block list
and the null-check branch in its loop is unreachable. -/
theorem claim10_theorem (s e : Int) (h0 : 0 ≤ s) (hle : s ≤ e)
    (h1 : e ≤ 4294967295) :
    (∃ r, getOptimalRange s e = some (some r)) ∧
    (∃ l, calculate (.num s) (.num e) = some (some l) ∧ l ≠ []) := by
  constructor
  · obtain ⟨r, hr, -, -, -⟩ := getOptimalRange_valid s e h0 hle h1
    exact ⟨r, hr⟩
  · have hs : toDecimal (.num s) = some s := by
      simp only [toDecimal]
      rw [if_pos ((isDecimalIp_true_iff _).mpr ⟨h0, by omega⟩)]
    have he' : toDecimal (.num e) = some e := by
      simp only [toDecimal]
      rw [if_pos ((isDecimalIp_true_iff _).mpr ⟨by omega, h1⟩)]
    obtain ⟨l, hl, -, -, hne⟩ := calculate_valid (.num s) (.num e) s e hs he' hle
    exact ⟨l, hl, hne⟩

/-- C10 witness: the instance `s = 0`, `e = 1`. -/
theorem claim10_witness : (0 : Int) ≤ 0 ∧ (0 : Int) ≤ 1 ∧ (1 : Int) ≤ 4294967295 ∧
    ((∃ r, getOptimalRange 0 1 = some (some r)) ∧
     (∃ l, calculate (.num 0) (.num 1) = some (some l) ∧ l ≠ [])) :=
  ⟨by decide, by decide, by decide,
   claim10_theorem 0 1 (by decide) (by decide) (by decide)⟩

/-- C8: `calculate` returns the JS `null` (a sentinel, not a raised error)
whenever either endpoint fails to convert, and whenever the converted end
precedes the converted start; `calculate "1.2.3.4" "1.2.3.3"` is `null`, and
`toDecimal "256.1.1.1"` raises at the codec boundary. -/
theorem claim8_theorem :
    (∀ a b : IPAny, toDecimal a = none → calculate a b = some none) ∧
    (∀ a b : IPAny, toDecimal b = none → calculate a b = some none) ∧
    (∀ (a b : IPAny) (sa sb : Int), toDecimal a = some sa →
      toDecimal b = some sb → sb < sa → calculate a b = some none) ∧
    calculate (.str "1.2.3.4") (.str "1.2.3.3") = some none ∧
    toDecimal (.str "256.1.1.1") = none := by
  refine ⟨?_, ?_, ?_, by decide, by decide⟩
  · intro a b ha
    simp only [calculate, ha]
  · intro a b hb
    match ha : toDecimal a with
    | none => simp only [calculate, ha]
    | some sa => simp only [calculate, ha, hb]
  · intro a b sa sb ha hb hlt
    simp only [calculate, ha, hb]
    rw [if_pos hlt]

/-- C8 witness: concrete instances of the three quantified parts. -/
theorem claim8_witness :
    calculate (.str "notanip") (.num 0) = some none ∧
    calculate (.num 0) (.str "notanip") = some none ∧
    calculate (.num 5) (.num 3) = some none :=
  ⟨claim8_theorem.1 (.str "notanip") (.num 0) (by decide),
   claim8_theorem.2.1 (.num 0) (.str "notanip") (by decide),
   claim8_theorem.2.2.1 (.num 5) (.num 3) 5 3 (by decide) (by decide) (by decide)⟩

/-- C1 counterexample: on the range `10.0.1.255 – 10.0.3.255` the code
returns two blocks, `10.0.1.255/32` and `10.0.2.0/23` (the `/23` at
`10.0.2.0` is aligned and ends exactly at `10.0.3.255`), not the three
blocks `10.0.1.255/32`, `10.0.2.0/24`, `10.0.3.0/24` the claim names. -/
theorem claim1_counterexample :
    calculate (.str "10.0.1.255") (.str "10.0.3.255") = some (some
      [{ ipLow := 167772671, ipLowStr := "10.0.1.255", ipHigh := 167772671,
         ipHighStr := "10.0.1.255", prefixMask := 4294967295,
         prefixMaskStr := "255.255.255.255", prefixSize := 32,
         invertedMask := 0, invertedMaskStr := "0.0.0.0", invertedMaskSize := 0 },
       { ipLow := 167772672, ipLowStr := "10.0.2.0", ipHigh := 167773183,
         ipHighStr := "10.0.3.255", prefixMask := 4294966784,
         prefixMaskStr := "255.255.254.0", prefixSize := 23,
         invertedMask := 511, invertedMaskStr := "0.0.1.255",
         invertedMaskSize := 9 }]) ∧
    (calculate (.str "10.0.1.255") (.str "10.0.3.255")).map
      (Option.map List.length) = some (some 2) := by
  constructor
  · decide
  · decide

/-- C1 (amended): for valid `start ≤ end`, `calculate` returns a block
sequence that covers `[start, end]` exactly once with no gaps and no
overlaps, sorted ascending by low address, each block's low equal to the
previous block's high + 1; on `10.0.1.255 – 10.0.3.255` it returns the two
blocks `10.0.1.255/32` and `10.0.2.0/23`. -/
theorem claim1_theorem :
    (∀ (a b : IPAny) (sa sb : Int), toDecimal a = some sa →
      toDecimal b = some sb → sa ≤ sb →
      ∃ l, calculate a b = some (some l) ∧
        coversBlocks sa.toNat sb.toNat l ∧
        (∀ r ∈ l, r.ipLow ≤ r.ipHigh) ∧
        (∀ x : Nat, (sa.toNat ≤ x ∧ x ≤ sb.toNat) ↔
          ∃ r ∈ l, r.ipLow ≤ x ∧ x ≤ r.ipHigh) ∧
        l.Pairwise (fun r1 r2 => r1.ipHigh < r2.ipLow) ∧
        (∀ i : Nat, (h : i + 1 < l.length) →
          (l.get ⟨i + 1, h⟩).ipLow = (l.get ⟨i, by omega⟩).ipHigh + 1)) ∧
    (calculate (.str "10.0.1.255") (.str "10.0.3.255")).map
        (Option.map (List.map (fun r => (r.ipLowStr, r.ipHighStr, r.prefixSize))))
      = some (some [("10.0.1.255", "10.0.1.255", 32),
                    ("10.0.2.0", "10.0.3.255", 23)]) := by
  constructor
  · intro a b sa sb ha hb hle
    obtain ⟨l, hl, hcov, hlh, -⟩ := calculate_valid a b sa sb ha hb hle
    exact ⟨l, hl, hcov, hlh, coversBlocks_mem_iff hcov hlh,
      coversBlocks_pairwise hcov hlh, coversBlocks_adjacent hcov⟩
  · decide

/-- C1 witness: the quantified part applied to the endpoints
`10.0.1.255` and `10.0.3.255` themselves. -/
theorem claim1_witness :
    toDecimal (.str "10.0.1.255") = some 167772671 ∧
    toDecimal (.str "10.0.3.255") = some 167773183 ∧
    (167772671 : Int) ≤ 167773183 ∧
    (∃ l, calculate (.str "10.0.1.255") (.str "10.0.3.255") = some (some l) ∧
      coversBlocks (167772671 : Int).toNat (167773183 : Int).toNat l ∧
      (∀ r ∈ l, r.ipLow ≤ r.ipHigh) ∧
      (∀ x : Nat, ((167772671 : Int).toNat ≤ x ∧ x ≤ (167773183 : Int).toNat) ↔
        ∃ r ∈ l, r.ipLow ≤ x ∧ x ≤ r.ipHigh) ∧
      l.Pairwise (fun r1 r2 => r1.ipHigh < r2.ipLow) ∧
      (∀ i : Nat, (h : i + 1 < l.length) →
        (l.get ⟨i + 1, h⟩).ipLow = (l.get ⟨i, by omega⟩).ipHigh + 1)) :=
  ⟨by decide, by decide, by decide,
   claim1_theorem.1 (.str "10.0.1.255") (.str "10.0.3.255") 167772671 167773183
     (by decide) (by decide) (by decide)⟩

/-- C3 counterexample: `"010.0.0.1"` is accepted by `isIp` (a valid address
string), but `toString (toDecimal "010.0.0.1")` is the canonical
`"10.0.0.1"`, not the original string: the string-side round trip of the
claim fails on non-canonical octets. -/
theorem claim3_counterexample :
    isIp "010.0.0.1" = true ∧
    toDecimal (.str "010.0.0.1") = some 167772161 ∧
    toString (.num 167772161) = some "10.0.0.1" ∧
    "10.0.0.1" ≠ "010.0.0.1" := by
  refine ⟨by decide, by decide, by decide, by decide⟩

/-- C3 (amended): the codec round-trips in both directions on integer
addresses (through the canonical string `ipStr`), and on valid address
strings `toString` is the identity and `toDecimal` parses to a valid
integer; the direction `toString (toDecimal s) = s` holds for the canonical
string of every integer but not for non-canonical strings such as
`"010.0.0.1"`. -/
theorem claim3_theorem :
    (∀ n : Int, 0 ≤ n → n ≤ 4294967295 →
      toDecimal (.num n) = some n ∧
      toString (.num n) = some (ipStr n.toNat) ∧
      toDecimal (.str (ipStr n.toNat)) = some n ∧
      toString (.str (ipStr n.toNat)) = some (ipStr n.toNat)) ∧
    (∀ s : String, isIp s = true →
      toString (.str s) = some s ∧
      ∃ m : Nat, m ≤ 4294967295 ∧ toDecimal (.str s) = some (m : Int)) := by
  constructor
  · intro n h0 h1
    have hcast : ((n.toNat : Nat) : Int) = n := Int.toNat_of_nonneg h0
    have hlt : n.toNat < 2 ^ 32 := by omega
    refine ⟨?_, ?_, ?_, ?_⟩
    · simp only [toDecimal]
      rw [if_pos ((isDecimalIp_true_iff _).mpr ⟨h0, h1⟩)]
    · rw [← hcast]
      exact toString_num_eq n.toNat (by omega)
    · rw [← hcast]
      exact toDecimal_ipStr n.toNat hlt
    · exact toString_str_eq _ (isIp_ipStr n.toNat hlt)
  · intro s hs
    exact ⟨toString_str_eq s hs, toDecimal_str_parses s hs⟩

/-- C3 witness: the integer instance `167772161` (= `10.0.0.1`) and the
string instance `"1.2.3.4"`. -/
theorem claim3_witness :
    (0 : Int) ≤ 167772161 ∧ (167772161 : Int) ≤ 4294967295 ∧
    (toDecimal (.num 167772161) = some 167772161 ∧
      toString (.num 167772161) = some (ipStr (167772161 : Int).toNat) ∧
      toDecimal (.str (ipStr (167772161 : Int).toNat)) = some 167772161 ∧
      toString (.str (ipStr (167772161 : Int).toNat))
        = some (ipStr (167772161 : Int).toNat)) ∧
    isIp "1.2.3.4" = true ∧
    (toString (.str "1.2.3.4") = some "1.2.3.4" ∧
      ∃ m : Nat, m ≤ 4294967295 ∧ toDecimal (.str "1.2.3.4") = some (m : Int)) :=
  ⟨by decide, by decide,
   claim3_theorem.1 167772161 (by decide) (by decide),
   by decide,
   claim3_theorem.2 "1.2.3.4" (by decide)⟩

/-- C4 counterexample: `calculateSubnetMask "1.2.3.4" 33` lets an error
escape to the caller: the internal `toString (getPrefixMask 33)` throws
(`getPrefixMask 33 = 6442450943` is not a valid address) and no handler
catches it, so the caller does not observe a present-or-null result. -/
theorem claim4_counterexample :
    calculateSubnetMask (.str "1.2.3.4") 33 = none ∧
    getPrefixMask 33 = 6442450943 ∧
    toString (.num 6442450943) = none := by
  refine ⟨by decide, by decide, by decide⟩

/-- C4 (amended): `calculate` and `calculateCIDRPrefix` never let a raised
error escape for any input of the declared argument types — the caller
observes only a present result or the JS `null`; `calculateSubnetMask` has
that property only for `prefixSize` in `[0, 32]` (for an out-of-range size,
e.g. 33, a codec error escapes). -/
theorem claim4_theorem :
    (∀ a b : IPAny, ∃ v, calculate a b = some v) ∧
    (∀ a b : IPAny, ∃ v, calculateCIDRPrefix a b = some v) ∧
    (∀ (ip : IPAny) (p : Nat), p ≤ 32 →
      ∃ v, calculateSubnetMask ip (p : Int) = some v) :=
  ⟨calculate_total, calculateCIDRPrefix_total,
   fun ip p hp => calculateSubnetMask_ok ip p hp⟩

/-- C4 witness: concrete instances of the three parts. -/
theorem claim4_witness :
    (∃ v, calculate (.str "bad") (.num 7) = some v) ∧
    (∃ v, calculateCIDRPrefix (.str "1.2.3.4") (.str "255.0.255.0") = some v) ∧
    (∃ v, calculateSubnetMask (.str "1.2.3.4") ((32 : Nat) : Int) = some v) :=
  ⟨claim4_theorem.1 (.str "bad") (.num 7),
   claim4_theorem.2.1 (.str "1.2.3.4") (.str "255.0.255.0"),
   claim4_theorem.2.2 (.str "1.2.3.4") 32 (by decide)⟩

/-- C7: for every valid address and subnet-mask value,
`calculateCIDRPrefix` derives as prefix size the length of the longest
contiguous run of leading 1-bits of the mask (`leadingOnesSpec`, stopping
silently at the first 0-bit, with no error for a non-contiguous mask) and
returns `getMaskRange ip prefixSize`;
`calculateCIDRPrefix "123.123.123.1" "255.255.255.0"` yields prefix size 24,
low `123.123.123.0`, high `123.123.123.255`. -/
theorem claim7_theorem :
    (∀ (ip mask : IPAny) (ipNum mNum : Int), toDecimal ip = some ipNum →
      toDecimal mask = some mNum →
      ∃ r, calculateCIDRPrefix ip mask = some (some r) ∧
        r.prefixSize = ((leadingOnesSpec mNum.toNat : Nat) : Int) ∧
        getMaskRange ipNum ((leadingOnesSpec mNum.toNat : Nat) : Int) = some r) ∧
    calculateCIDRPrefix (.str "123.123.123.1") (.str "255.255.255.0") = some (some
      { ipLow := 2071689984, ipLowStr := "123.123.123.0", ipHigh := 2071690239,
        ipHighStr := "123.123.123.255", prefixMask := 4294967040,
        prefixMaskStr := "255.255.255.0", prefixSize := 24,
        invertedMask := 255, invertedMaskStr := "0.0.0.255",
        invertedMaskSize := 8 }) := by
  constructor
  · intro ip mask ipNum mNum hip hm
    obtain ⟨hm0, hm1⟩ := toDecimal_valid mask mNum hm
    have hmcast : ((mNum.toNat : Nat) : Int) = mNum := Int.toNat_of_nonneg hm0
    have hmlt : mNum.toNat < 2 ^ 32 := by omega
    have hgo : cidrPrefixGo mNum 32 0 0 = leadingOnesSpec mNum.toNat := by
      rw [← hmcast]
      exact cidrPrefixGo_eq_leadingOnes mNum.toNat hmlt
    have hle32 : leadingOnesSpec mNum.toNat ≤ 32 := leadingOnesSpec_le _
    obtain ⟨r, hr, -, -, -, -, hps, -, -, -, -, -⟩ :=
      getMaskRange_spec ipNum (leadingOnesSpec mNum.toNat) hle32
    refine ⟨r, ?_, hps, hr⟩
    simp only [calculateCIDRPrefix, hip, hm, hgo, hr]
  · decide

/-- C7 witness: the concrete mask `255.255.255.0` over `123.123.123.1`. -/
theorem claim7_witness :
    toDecimal (.str "123.123.123.1") = some 2071689985 ∧
    toDecimal (.str "255.255.255.0") = some 4294967040 ∧
    (∃ r, calculateCIDRPrefix (.str "123.123.123.1") (.str "255.255.255.0")
        = some (some r) ∧
      r.prefixSize = ((leadingOnesSpec (4294967040 : Int).toNat : Nat) : Int) ∧
      getMaskRange 2071689985 ((leadingOnesSpec (4294967040 : Int).toNat : Nat) : Int)
        = some r) :=
  ⟨by decide, by decide,
   claim7_theorem.1 (.str "123.123.123.1") (.str "255.255.255.0") 2071689985
     4294967040 (by decide) (by decide)⟩

end IpSubnetCalculator
